import Mathlib

/-!
Verification of the pipeline-execution-engine specification of the ZenML
quickstart repository.  The repository's own sources expose only the tutorial
notebook (whose step functions are embedded below) and CI workflows; the
engine itself (artifact store, fingerprint engine, dependency-graph builder,
scheduler/executor) is described by the specification document, so those
components are modelled here directly from the specification's words.
-/

namespace ZenML

/-! ## Artifact store (spec section 4.4) -/

abbrev Fingerprint := Nat
abbrev Value := Nat

/-- A handle referencing a stored artifact; artifacts are addressed by their
fingerprint, so the reference is the fingerprint itself. -/
abbrev ArtifactHandle := Fingerprint

/-- Modelled from the spec: the Artifact Store persists step outputs addressed
by fingerprint.  Represented as an association list in insertion order. -/
abbrev Store := List (Fingerprint × Value)

/-- Modelled from the spec: `get(fingerprint) -> ArtifactHandle | not found`,
here returning the stored value of the first (and only effective) write. -/
def storeGet (s : Store) (fp : Fingerprint) : Option Value :=
  match s with
  | [] => none
  | (fp', v) :: rest => if fp' = fp then some v else storeGet rest fp

/-- Modelled from the spec: `put(fingerprint, value) -> ArtifactHandle`; a put
with a fingerprint that is already stored is a no-op that returns the existing
handle, so there is at most one effective write per fingerprint. -/
def storePut (s : Store) (fp : Fingerprint) (v : Value) : Store × ArtifactHandle :=
  match storeGet s fp with
  | some _ => (s, fp)
  | none => (s ++ [(fp, v)], fp)

theorem storeGet_append_left {s : Store} {fp : Fingerprint} {v : Value}
    (h : storeGet s fp = some v) (t : Store) : storeGet (s ++ t) fp = some v := by
  induction s with
  | nil => simp [storeGet] at h
  | cons hd tl ih =>
    obtain ⟨fp', w⟩ := hd
    simp only [storeGet, List.cons_append] at h ⊢
    by_cases hfp : fp' = fp
    · simpa [hfp] using h
    · simp only [hfp, if_false] at h ⊢
      exact ih h

theorem storeGet_append_self {s : Store} {fp : Fingerprint}
    (h : storeGet s fp = none) (v : Value) :
    storeGet (s ++ [(fp, v)]) fp = some v := by
  induction s with
  | nil => simp [storeGet]
  | cons hd tl ih =>
    obtain ⟨fp', w⟩ := hd
    simp only [storeGet, List.cons_append] at h ⊢
    by_cases hfp : fp' = fp
    · simp [hfp] at h
    · simp only [hfp, if_false] at h ⊢
      exact ih h

/-- A value once stored under a fingerprint survives any later put. -/
theorem storeGet_storePut_mono {s : Store} {fp : Fingerprint} {v : Value}
    (h : storeGet s fp = some v) (fp' : Fingerprint) (v' : Value) :
    storeGet (storePut s fp' v').1 fp = some v := by
  unfold storePut
  cases hg : storeGet s fp' with
  | some w => simpa using h
  | none => exact storeGet_append_left h _

/-- After a put, the fingerprint is present in the store. -/
theorem storeGet_storePut_self (s : Store) (fp : Fingerprint) (v : Value) :
    ∃ w, storeGet (storePut s fp v).1 fp = some w := by
  unfold storePut
  cases hg : storeGet s fp with
  | some w => exact ⟨w, by simpa using hg⟩
  | none => exact ⟨v, storeGet_append_self hg v⟩

/-! ## Fingerprint engine (spec section 4.1) -/

/-- Modelled from the spec: the Fingerprint Engine computes a deterministic
hash from a Step Execution's code identity, its ordered input artifact
fingerprints, and its configuration mapping. -/
def fingerprint (codeId : Nat) (inputFps : List Fingerprint)
    (config : List (Nat × Nat)) : Fingerprint :=
  let mix : Nat → Nat → Nat := fun h x => h * 1000003 + x + 1
  let h1 := mix 17 codeId
  let h2 := inputFps.foldl mix h1
  config.foldl (fun h kv => mix (mix h kv.1) kv.2) h2

/-- Modelled from the spec: an evaluation of the Fingerprint Engine at a given
time.  The spec guarantees the fingerprint is a pure function of the three
listed inputs, so the evaluation time does not enter the computation. -/
def fingerprintAt (_time : Nat) (codeId : Nat) (inputFps : List Fingerprint)
    (config : List (Nat × Nat)) : Fingerprint :=
  fingerprint codeId inputFps config

/-- C7: Artifact Store writes are idempotent per fingerprint: a put with a
fingerprint already stored is a no-op returning the existing handle, the
stored value for a fingerprint never changes under any later put, and a get
after a put with the same fingerprint returns the first-stored value. -/
theorem artifact_store_idempotent_per_fingerprint
    (s : Store) (fp : Fingerprint) (v w : Value) :
    (storeGet s fp = some w → storePut s fp v = (s, fp)) ∧
    (storeGet s fp = some w →
      ∀ fp' v', storeGet (storePut s fp' v').1 fp = some w) ∧
    (storeGet s fp = none → storeGet (storePut s fp v).1 fp = some v) ∧
    (storeGet s fp = some w → storeGet (storePut s fp v).1 fp = some w) := by
  refine ⟨fun h => ?_, fun h fp' v' => storeGet_storePut_mono h fp' v',
    fun h => ?_, fun h => storeGet_storePut_mono h fp v⟩
  · unfold storePut
    rw [h]
  · unfold storePut
    rw [h]
    exact storeGet_append_self h v

theorem artifact_store_idempotent_per_fingerprint_witness :
    storePut [(5, 7)] 5 9 = ([(5, 7)], 5) ∧
    storeGet (storePut [(5, 7)] 3 4).1 5 = some 7 ∧
    storeGet (storePut ([] : Store) 3 4).1 3 = some 4 :=
  ⟨(artifact_store_idempotent_per_fingerprint [(5, 7)] 5 9 7).1 (by decide),
   (artifact_store_idempotent_per_fingerprint [(5, 7)] 5 9 7).2.1 (by decide) 3 4,
   (artifact_store_idempotent_per_fingerprint [] 3 4 0).2.2.1 (by decide)⟩

/-- C4: the Fingerprint Engine is deterministic: two evaluations at any two
times, on the same step code identity, the same ordered input artifact
fingerprints and the same configuration mapping, produce the same
fingerprint. -/
theorem fingerprint_engine_deterministic
    (t1 t2 : Nat) (c1 c2 : Nat) (i1 i2 : List Fingerprint)
    (k1 k2 : List (Nat × Nat))
    (hc : c1 = c2) (hi : i1 = i2) (hk : k1 = k2) :
    fingerprintAt t1 c1 i1 k1 = fingerprintAt t2 c2 i2 k2 := by
  subst hc; subst hi; subst hk; rfl

theorem fingerprint_engine_deterministic_witness :
    fingerprintAt 0 2 [3, 4] [(1, 1)] = fingerprintAt 99 2 [3, 4] [(1, 1)] :=
  fingerprint_engine_deterministic 0 99 2 2 [3, 4] [3, 4] [(1, 1)] [(1, 1)]
    rfl rfl rfl

/-! ## Scheduler/executor state machine (spec section 4.3) -/

/-- Status of a Step Execution, per the spec's state machine
`PENDING → READY → (CACHED | RUNNING) → (SUCCEEDED | FAILED)`. -/
inductive Status
  | pending
  | ready
  | running
  | cached
  | succeeded
  | failed
deriving DecidableEq

/-- Modelled from the spec: the Dependency Graph Builder's output, a graph of
Step Executions whose predecessor edges come from data-flow dependencies and
from explicit ordering directives ("run after"). -/
structure DepGraph where
  dataPreds : Nat → List Nat
  afterPreds : Nat → List Nat

/-- All predecessors of a node: data dependencies plus ordering directives. -/
def DepGraph.preds (g : DepGraph) (i : Nat) : List Nat :=
  g.dataPreds i ++ g.afterPreds i

/-- Pointwise update of a scheduler state. -/
def setSt (st : Nat → Status) (i : Nat) (s : Status) : Nat → Status :=
  fun j => if j = i then s else st j

/-- All predecessors of `i` are in a terminal success state. -/
def predsDone (g : DepGraph) (st : Nat → Status) (i : Nat) : Prop :=
  ∀ p ∈ g.preds i, st p = Status.succeeded ∨ st p = Status.cached

/-- Modelled from the spec: one transition of the scheduler's state machine.
`PENDING → READY` only when all predecessors are SUCCEEDED or CACHED; on READY
a cache hit goes to CACHED and a miss to RUNNING; a RUNNING body ends in
SUCCEEDED or FAILED. -/
inductive SchedStep (g : DepGraph) : (Nat → Status) → (Nat → Status) → Prop
  | toReady (st : Nat → Status) (i : Nat) :
      st i = Status.pending → predsDone g st i →
      SchedStep g st (setSt st i Status.ready)
  | toCached (st : Nat → Status) (i : Nat) :
      st i = Status.ready → SchedStep g st (setSt st i Status.cached)
  | toRunning (st : Nat → Status) (i : Nat) :
      st i = Status.ready → SchedStep g st (setSt st i Status.running)
  | toSucceeded (st : Nat → Status) (i : Nat) :
      st i = Status.running → SchedStep g st (setSt st i Status.succeeded)
  | toFailed (st : Nat → Status) (i : Nat) :
      st i = Status.running → SchedStep g st (setSt st i Status.failed)

/-- Initially every Step Execution is PENDING. -/
def initState : Nat → Status := fun _ => Status.pending

/-- States reachable by the scheduler from the all-PENDING initial state. -/
inductive Reachable (g : DepGraph) : (Nat → Status) → Prop
  | init : Reachable g initState
  | next {st st' : Nat → Status} :
      Reachable g st → SchedStep g st st' → Reachable g st'

theorem predsDone_setSt {g : DepGraph} {st : Nat → Status} {i k : Nat}
    {s : Status} (hd : predsDone g st i)
    (hk : st k ≠ Status.succeeded ∧ st k ≠ Status.cached) :
    predsDone g (setSt st k s) i := by
  intro p hp
  have hps := hd p hp
  have hpk : p ≠ k := by
    rintro rfl
    rcases hps with h | h
    · exact hk.1 h
    · exact hk.2 h
  simpa [setSt, hpk] using hps

/-- Core scheduler invariant: a Step Execution that has left PENDING has all
its predecessors in a terminal success state. -/
theorem reachable_inv {g : DepGraph} {st : Nat → Status} (h : Reachable g st) :
    ∀ i, st i ≠ Status.pending → predsDone g st i := by
  induction h with
  | init => exact fun i hi => absurd rfl hi
  | next _ hs ih =>
    cases hs with
    | toReady k hk hp =>
      intro i hi
      by_cases hik : i = k
      · subst hik
        exact predsDone_setSt hp (by rw [hk]; exact ⟨by decide, by decide⟩)
      · exact predsDone_setSt (ih i (by simpa [setSt, hik] using hi))
          (by rw [hk]; exact ⟨by decide, by decide⟩)
    | toCached k hk =>
      intro i hi
      by_cases hik : i = k
      · subst hik
        exact predsDone_setSt (ih i (by rw [hk]; decide))
          (by rw [hk]; exact ⟨by decide, by decide⟩)
      · exact predsDone_setSt (ih i (by simpa [setSt, hik] using hi))
          (by rw [hk]; exact ⟨by decide, by decide⟩)
    | toRunning k hk =>
      intro i hi
      by_cases hik : i = k
      · subst hik
        exact predsDone_setSt (ih i (by rw [hk]; decide))
          (by rw [hk]; exact ⟨by decide, by decide⟩)
      · exact predsDone_setSt (ih i (by simpa [setSt, hik] using hi))
          (by rw [hk]; exact ⟨by decide, by decide⟩)
    | toSucceeded k hk =>
      intro i hi
      by_cases hik : i = k
      · subst hik
        exact predsDone_setSt (ih i (by rw [hk]; decide))
          (by rw [hk]; exact ⟨by decide, by decide⟩)
      · exact predsDone_setSt (ih i (by simpa [setSt, hik] using hi))
          (by rw [hk]; exact ⟨by decide, by decide⟩)
    | toFailed k hk =>
      intro i hi
      by_cases hik : i = k
      · subst hik
        exact predsDone_setSt (ih i (by rw [hk]; decide))
          (by rw [hk]; exact ⟨by decide, by decide⟩)
      · exact predsDone_setSt (ih i (by simpa [setSt, hik] using hi))
          (by rw [hk]; exact ⟨by decide, by decide⟩)

/-- A predecessor that is not in a terminal success state keeps its
dependent PENDING. -/
theorem pred_blocks {g : DepGraph} {st : Nat → Status} (h : Reachable g st)
    {p j : Nat} (hp : p ∈ g.preds j)
    (hns : st p ≠ Status.succeeded) (hnc : st p ≠ Status.cached) :
    st j = Status.pending := by
  by_contra hj
  rcases reachable_inv h j hj p hp with h1 | h1
  · exact hns h1
  · exact hnc h1

/-- Transitive successors ("downstream dependents") in the dependency graph. -/
inductive Downstream (g : DepGraph) : Nat → Nat → Prop
  | base {p j : Nat} : p ∈ g.preds j → Downstream g p j
  | trans {p q j : Nat} : Downstream g p q → q ∈ g.preds j → Downstream g p j

/-- Modelled from the spec: the run's final report marks each Step Execution
as ran, cached or failed; a step that never left PENDING (or never finished)
is reported as skipped. -/
inductive ReportStatus
  | ran
  | wasCached
  | wasFailed
  | skipped
deriving DecidableEq

/-- Modelled from the spec: the report entry derived from a final status. -/
def reportOf : Status → ReportStatus
  | Status.succeeded => ReportStatus.ran
  | Status.cached => ReportStatus.wasCached
  | Status.failed => ReportStatus.wasFailed
  | _ => ReportStatus.skipped

/-- C2: in every reachable state of the scheduler, no Step Execution has left
PENDING (for READY, and hence for RUNNING, CACHED, SUCCEEDED or FAILED)
unless every one of its predecessors is SUCCEEDED or CACHED; this holds for
every dependency graph the engine executes. -/
theorem no_start_before_preds_terminal {g : DepGraph} {st : Nat → Status}
    (h : Reachable g st) (i : Nat) (hi : st i ≠ Status.pending) :
    ∀ p ∈ g.preds i, st p = Status.succeeded ∨ st p = Status.cached :=
  reachable_inv h i hi

/-- A two-node graph with the data-flow edge 0 → 1. -/
def gData : DepGraph := ⟨fun i => if i = 1 then [0] else [], fun _ => []⟩

/-- A scheduler state of `gData` where step 0 has succeeded and step 1 has
just become ready. -/
def stData : Nat → Status :=
  setSt (setSt (setSt (setSt initState 0 Status.ready) 0 Status.running)
    0 Status.succeeded) 1 Status.ready

theorem stData_reachable : Reachable gData stData := by
  have h1 : Reachable gData (setSt initState 0 Status.ready) :=
    Reachable.init.next (SchedStep.toReady initState 0 rfl
      (by intro p hp; simp [gData, DepGraph.preds] at hp))
  have h2 : Reachable gData
      (setSt (setSt initState 0 Status.ready) 0 Status.running) :=
    h1.next (SchedStep.toRunning _ 0 (by decide))
  have h3 : Reachable gData (setSt (setSt (setSt initState 0 Status.ready)
      0 Status.running) 0 Status.succeeded) :=
    h2.next (SchedStep.toSucceeded _ 0 (by decide))
  refine h3.next (SchedStep.toReady _ 1 (by decide) ?_)
  intro p hp
  simp only [gData, DepGraph.preds, List.append_nil, if_true,
    List.mem_singleton, if_pos] at hp
  subst hp
  left
  decide

theorem no_start_before_preds_terminal_witness :
    stData 1 ≠ Status.pending ∧
    (stData 0 = Status.succeeded ∨ stData 0 = Status.cached) :=
  ⟨by decide,
   no_start_before_preds_terminal stData_reachable 1 (by decide) 0
     (by simp [gData, DepGraph.preds])⟩

/-- C5: for two otherwise-independent steps related by an explicit ordering
directive ("run after"), in every reachable state of every run the directed-to
step has started only if the directed-from step has finished (SUCCEEDED or
CACHED); as this holds for all schedules, the enforced order is the same
across repeated runs. -/
theorem ordering_directive_enforced {g : DepGraph} {st : Nat → Status}
    (h : Reachable g st) (a b : Nat)
    (hdir : a ∈ g.afterPreds b) (_hindep : a ∉ g.dataPreds b)
    (hb : st b ≠ Status.pending) :
    st a = Status.succeeded ∨ st a = Status.cached :=
  reachable_inv h b hb a (by simp [DepGraph.preds, hdir])

/-- A two-node graph whose only edge is the ordering directive 2 "after" 3:
node 3 must run after node 2, with no data dependency. -/
def gAfter : DepGraph := ⟨fun _ => [], fun i => if i = 3 then [2] else []⟩

/-- A scheduler state of `gAfter` where step 2 has succeeded and step 3 has
just become ready. -/
def stAfter : Nat → Status :=
  setSt (setSt (setSt (setSt initState 2 Status.ready) 2 Status.running)
    2 Status.succeeded) 3 Status.ready

theorem stAfter_reachable : Reachable gAfter stAfter := by
  have h1 : Reachable gAfter (setSt initState 2 Status.ready) :=
    Reachable.init.next (SchedStep.toReady initState 2 rfl
      (by intro p hp; simp [gAfter, DepGraph.preds] at hp))
  have h2 : Reachable gAfter
      (setSt (setSt initState 2 Status.ready) 2 Status.running) :=
    h1.next (SchedStep.toRunning _ 2 (by decide))
  have h3 : Reachable gAfter (setSt (setSt (setSt initState 2 Status.ready)
      2 Status.running) 2 Status.succeeded) :=
    h2.next (SchedStep.toSucceeded _ 2 (by decide))
  refine h3.next (SchedStep.toReady _ 3 (by decide) ?_)
  intro p hp
  simp only [gAfter, DepGraph.preds, List.nil_append, if_true,
    List.mem_singleton, if_pos] at hp
  subst hp
  left
  decide

theorem ordering_directive_enforced_witness :
    stAfter 3 ≠ Status.pending ∧
    (stAfter 2 = Status.succeeded ∨ stAfter 2 = Status.cached) :=
  ⟨by decide,
   ordering_directive_enforced stAfter_reachable 2 3
     (by simp [gAfter]) (by simp [gAfter]) (by decide)⟩

theorem failed_blocks {g : DepGraph} {st : Nat → Status} (h : Reachable g st)
    {p j : Nat} (hf : st p = Status.failed) (hd : Downstream g p j) :
    st j = Status.pending := by
  induction hd with
  | base hp => exact pred_blocks h hp (by rw [hf]; decide) (by rw [hf]; decide)
  | trans _ hq ih =>
    exact pred_blocks h hq (by rw [ih]; decide) (by rw [ih]; decide)

/-- C6: in every reachable state of a run in which a Step Execution has
FAILED, each of its downstream dependents is still PENDING — it never became
READY, never ran — and the run's report marks it as skipped. -/
theorem failed_step_skips_downstream {g : DepGraph} {st : Nat → Status}
    (h : Reachable g st) (p j : Nat)
    (hf : st p = Status.failed) (hd : Downstream g p j) :
    st j = Status.pending ∧ st j ≠ Status.ready ∧ st j ≠ Status.running ∧
      reportOf (st j) = ReportStatus.skipped := by
  have hj := failed_blocks h hf hd
  exact ⟨hj, by rw [hj]; decide, by rw [hj]; decide, by rw [hj]; decide⟩

/-- A scheduler state of `gData` in which step 0 has failed. -/
def stFail : Nat → Status :=
  setSt (setSt (setSt initState 0 Status.ready) 0 Status.running)
    0 Status.failed

theorem stFail_reachable : Reachable gData stFail := by
  have h1 : Reachable gData (setSt initState 0 Status.ready) :=
    Reachable.init.next (SchedStep.toReady initState 0 rfl
      (by intro p hp; simp [gData, DepGraph.preds] at hp))
  have h2 : Reachable gData
      (setSt (setSt initState 0 Status.ready) 0 Status.running) :=
    h1.next (SchedStep.toRunning _ 0 (by decide))
  exact h2.next (SchedStep.toFailed _ 0 (by decide))

theorem failed_step_skips_downstream_witness :
    stFail 1 = Status.pending ∧ stFail 1 ≠ Status.ready ∧
      stFail 1 ≠ Status.running ∧
      reportOf (stFail 1) = ReportStatus.skipped :=
  failed_step_skips_downstream stFail_reachable 0 1 (by decide)
    (Downstream.base (by simp [gData, DepGraph.preds]))

/-! ## Executable caching engine (spec sections 2, 4.1, 4.3, 4.4, 8) -/

/-- Generic pointwise update of a map out of `Nat`. -/
def upd {α : Type} (f : Nat → α) (i : Nat) (a : α) : Nat → α :=
  fun j => if j = i then a else f j

/-- Modelled from the spec: a pipeline as presented to the engine: `n` step
invocations, the dependency graph, each step's code identity, configuration
mapping and (deterministic) body. -/
structure EnginePipeline where
  n : Nat
  graph : DepGraph
  codeId : Nat → Nat
  config : Nat → List (Nat × Nat)
  impl : Nat → List Value → Value

/-- The mutable state of one run: per-step output artifact references and
values, per-step status, the shared artifact store, and the list of steps
whose bodies were actually executed (cache misses). -/
structure RunState where
  refs : Nat → ArtifactHandle
  vals : Nat → Value
  status : Nat → Status
  store : Store
  executed : List Nat

/-- A fresh run over a given (persistent) artifact store. -/
def initRun (s : Store) : RunState :=
  ⟨fun _ => 0, fun _ => 0, fun _ => Status.pending, s, []⟩

/-- The cache fingerprint of step `i` in the current run state: a pure
function of the step's code identity, the ordered fingerprints of its input
artifacts, and its configuration. -/
def stepFp (p : EnginePipeline) (rs : RunState) (i : Nat) : Fingerprint :=
  fingerprint (p.codeId i) ((p.graph.dataPreds i).map rs.refs) (p.config i)

/-- Modelled from the spec: processing one READY step: a cache hit transitions
directly to CACHED reusing the stored output; a miss RUNs the body, stores the
output as a new artifact, and transitions to SUCCEEDED. -/
def execStep (p : EnginePipeline) (rs : RunState) (i : Nat) : RunState :=
  let fp := stepFp p rs i
  match storeGet rs.store fp with
  | some v =>
      ⟨upd rs.refs i fp, upd rs.vals i v, setSt rs.status i Status.cached,
        rs.store, rs.executed⟩
  | none =>
      let v := p.impl i ((p.graph.dataPreds i).map rs.vals)
      ⟨upd rs.refs i fp, upd rs.vals i v, setSt rs.status i Status.succeeded,
        (storePut rs.store fp v).1, rs.executed ++ [i]⟩

/-- Execute the steps of a run in the given (topological) order. -/
def runSteps (p : EnginePipeline) (rs : RunState) : List Nat → RunState
  | [] => rs
  | i :: rest => runSteps p (execStep p rs i) rest

/-- A run step with its fingerprint in the store is a pure cache hit. -/
theorem execStep_hit {p : EnginePipeline} {rs : RunState} {i : Nat} {v : Value}
    (h : storeGet rs.store (stepFp p rs i) = some v) :
    execStep p rs i = ⟨upd rs.refs i (stepFp p rs i), upd rs.vals i v,
      setSt rs.status i Status.cached, rs.store, rs.executed⟩ := by
  unfold execStep
  simp only [h]

theorem execStep_refs (p : EnginePipeline) (rs : RunState) (i : Nat) :
    (execStep p rs i).refs = upd rs.refs i (stepFp p rs i) := by
  cases hg : storeGet rs.store (stepFp p rs i) <;> simp [execStep, hg]

theorem execStep_vals (p : EnginePipeline) (rs : RunState) (i : Nat) :
    (execStep p rs i).vals = upd rs.vals i ((execStep p rs i).vals i) := by
  cases hg : storeGet rs.store (stepFp p rs i) <;> simp [execStep, hg, upd]

/-- After processing step `i`, its fingerprint is stored with its output. -/
theorem execStep_store_get (p : EnginePipeline) (rs : RunState) (i : Nat) :
    storeGet (execStep p rs i).store (stepFp p rs i) =
      some ((execStep p rs i).vals i) := by
  cases hg : storeGet rs.store (stepFp p rs i) with
  | some v => simp [execStep, hg, upd]
  | none =>
    simp only [execStep, hg]
    simp only [storePut, hg, upd, if_pos rfl]
    exact storeGet_append_self hg _

/-- The artifact store only grows during a run. -/
theorem runSteps_store_mono (p : EnginePipeline) {fp : Fingerprint} {v : Value} :
    ∀ (l : List Nat) (rs : RunState), storeGet rs.store fp = some v →
      storeGet (runSteps p rs l).store fp = some v := by
  intro l
  induction l with
  | nil => exact fun rs h => h
  | cons i rest ih =>
    intro rs h
    refine ih (execStep p rs i) ?_
    cases hg : storeGet rs.store (stepFp p rs i) with
    | some w => simpa [execStep, hg] using h
    | none =>
      simp only [execStep, hg]
      exact storeGet_storePut_mono h _ _

/-- Lockstep comparison of a run with a re-run over the store the first run
produced: the re-run hits the cache at every step, changes nothing, executes
no step body, and reproduces the first run's artifact references. -/
theorem runSteps_lockstep (p : EnginePipeline) :
    ∀ (l : List Nat) (rs1 rs2 : RunState),
      rs2.refs = rs1.refs → rs2.vals = rs1.vals →
      rs2.store = (runSteps p rs1 l).store →
      (runSteps p rs2 l).refs = (runSteps p rs1 l).refs ∧
      (runSteps p rs2 l).vals = (runSteps p rs1 l).vals ∧
      (runSteps p rs2 l).store = rs2.store ∧
      (runSteps p rs2 l).executed = rs2.executed ∧
      (∀ j, j ∈ l → (runSteps p rs2 l).status j = Status.cached) ∧
      (∀ j, j ∉ l → (runSteps p rs2 l).status j = rs2.status j) := by
  intro l
  induction l with
  | nil =>
    intro rs1 rs2 hr hv _
    exact ⟨hr, hv, rfl, rfl, fun j hj => absurd hj (List.not_mem_nil j),
      fun j _ => rfl⟩
  | cons i rest ih =>
    intro rs1 rs2 hr hv hs
    have hs' : rs2.store = (runSteps p (execStep p rs1 i) rest).store := hs
    have hfp : stepFp p rs2 i = stepFp p rs1 i := by
      unfold stepFp
      rw [hr]
    have hkey : storeGet rs2.store (stepFp p rs1 i) =
        some ((execStep p rs1 i).vals i) := by
      rw [hs']
      exact runSteps_store_mono p rest _ (execStep_store_get p rs1 i)
    have hkey2 : storeGet rs2.store (stepFp p rs2 i) =
        some ((execStep p rs1 i).vals i) := by
      rw [hfp]
      exact hkey
    have h2step : execStep p rs2 i =
        ⟨upd rs2.refs i (stepFp p rs1 i),
          upd rs2.vals i ((execStep p rs1 i).vals i),
          setSt rs2.status i Status.cached, rs2.store, rs2.executed⟩ := by
      rw [execStep_hit hkey2, hfp]
    have hr' : (execStep p rs2 i).refs = (execStep p rs1 i).refs := by
      rw [h2step, execStep_refs, hr]
    have hv' : (execStep p rs2 i).vals = (execStep p rs1 i).vals := by
      rw [h2step]
      show upd rs2.vals i ((execStep p rs1 i).vals i) = _
      rw [hv, ← execStep_vals]
    have hst' : (execStep p rs2 i).store = (runSteps p (execStep p rs1 i) rest).store := by
      rw [h2step]
      exact hs'
    obtain ⟨c1, c2, c3, c4, c5, c6⟩ := ih (execStep p rs1 i) (execStep p rs2 i) hr' hv' hst'
    have hstore2 : (execStep p rs2 i).store = rs2.store := by rw [h2step]
    have hexec2 : (execStep p rs2 i).executed = rs2.executed := by rw [h2step]
    refine ⟨c1, c2, c3.trans hstore2, c4.trans hexec2, ?_, ?_⟩
    · intro j hj
      by_cases hjr : j ∈ rest
      · exact c5 j hjr
      · rcases List.mem_cons.1 hj with rfl | hjr2
        · show (runSteps p (execStep p rs2 j) rest).status j = Status.cached
          rw [c6 j hjr, h2step]
          show setSt rs2.status j Status.cached j = Status.cached
          simp [setSt]
        · exact absurd hjr2 hjr
    · intro j hj
      have hji : j ≠ i := fun h => hj (h ▸ List.mem_cons_self i rest)
      have hjr : j ∉ rest := fun h => hj (List.mem_cons_of_mem i h)
      show (runSteps p (execStep p rs2 i) rest).status j = rs2.status j
      rw [c6 j hjr, h2step]
      show setSt rs2.status i Status.cached j = rs2.status j
      simp [setSt, hji]

/-- C1: re-running a pipeline with identical inputs and configuration over
the artifact store produced by the first run leaves every step CACHED, with
output artifact references identical to the first run's, and executes no
step body. -/
theorem second_run_all_cached (p : EnginePipeline) (s0 : Store)
    (order : List Nat) (i : Nat) (hi : i ∈ order) :
    (runSteps p (initRun (runSteps p (initRun s0) order).store) order).status i
        = Status.cached ∧
    (runSteps p (initRun (runSteps p (initRun s0) order).store) order).refs i
        = (runSteps p (initRun s0) order).refs i ∧
    (runSteps p (initRun (runSteps p (initRun s0) order).store) order).executed
        = [] := by
  obtain ⟨c1, _, _, c4, c5, _⟩ := runSteps_lockstep p order (initRun s0)
    (initRun (runSteps p (initRun s0) order).store) rfl rfl rfl
  exact ⟨c5 i hi, by rw [c1], c4⟩

/-- A small two-step pipeline (step 1 consumes step 0's output). -/
def pTwo : EnginePipeline :=
  ⟨2, ⟨fun i => if i = 1 then [0] else [], fun _ => []⟩,
    fun i => i + 10, fun _ => [], fun i inputs => inputs.foldl (· + ·) i⟩

theorem second_run_all_cached_witness :
    (runSteps pTwo (initRun (runSteps pTwo (initRun []) [0, 1]).store)
        [0, 1]).status 1 = Status.cached ∧
    (runSteps pTwo (initRun (runSteps pTwo (initRun []) [0, 1]).store)
        [0, 1]).refs 1 = (runSteps pTwo (initRun []) [0, 1]).refs 1 ∧
    (runSteps pTwo (initRun (runSteps pTwo (initRun []) [0, 1]).store)
        [0, 1]).executed = [] :=
  second_run_all_cached pTwo [] [0, 1] 1 (by decide)

/-! ## Dependency Graph Builder (spec section 4.2) -/

/-- Errors raised by the Dependency Graph Builder. -/
inductive BuildError
  | cycleError
deriving DecidableEq

/-- One peeling pass of Kahn's algorithm: which steps of `remaining` have all
their predecessors already ordered in `done`. -/
def kahnReady (g : DepGraph) (done : List Nat) (i : Nat) : Bool :=
  (g.preds i).all fun d => done.contains d

/-- Modelled from the spec: the Dependency Graph Builder orders the Step
Executions by repeatedly peeling off steps whose predecessors (data
dependencies and ordering directives alike) are all already ordered; if it
gets stuck before ordering every step, the edges contain a cycle and it
fails with a CycleError. -/
def kahnAux (g : DepGraph) : Nat → List Nat → List Nat → Except BuildError (List Nat)
  | 0, done, remaining =>
      if remaining.isEmpty then Except.ok done
      else Except.error BuildError.cycleError
  | fuel + 1, done, remaining =>
      if remaining.isEmpty then Except.ok done
      else
        let rdy := remaining.filter (kahnReady g done)
        if rdy.isEmpty then Except.error BuildError.cycleError
        else kahnAux g fuel (done ++ rdy)
          (remaining.filter fun i => ! kahnReady g done i)

/-- Modelled from the spec: build the execution order for a pipeline's steps
(or fail with a CycleError). -/
def buildGraph (p : EnginePipeline) : Except BuildError (List Nat) :=
  kahnAux p.graph p.n [] (List.range p.n)

/-- Modelled from the spec: the engine entry point builds the dependency
graph first — rejecting cycles with a CycleError before anything executes —
and only then runs the steps in the returned topological order. -/
def runPipeline (p : EnginePipeline) (s0 : Store) : Except BuildError RunState :=
  match buildGraph p with
  | Except.error e => Except.error e
  | Except.ok order => Except.ok (runSteps p (initRun s0) order)

/-- A list is topologically sorted for `g`: every predecessor of a listed
step appears in the list, strictly earlier. -/
def topoSorted (g : DepGraph) (l : List Nat) : Prop :=
  ∀ j ∈ l, ∀ d ∈ g.preds j, d ∈ l ∧ l.indexOf d < l.indexOf j

theorem topoSorted_append {g : DepGraph} {done rdy : List Nat}
    (hts : topoSorted g done)
    (hrdy : ∀ j ∈ rdy, ∀ d ∈ g.preds j, d ∈ done)
    (hdisj : ∀ j ∈ rdy, j ∉ done) :
    topoSorted g (done ++ rdy) := by
  intro j hj d hd
  rcases List.mem_append.1 hj with hjd | hjr
  · obtain ⟨hdin, hlt⟩ := hts j hjd d hd
    refine ⟨List.mem_append.2 (Or.inl hdin), ?_⟩
    rw [List.indexOf_append_of_mem hdin, List.indexOf_append_of_mem hjd]
    exact hlt
  · have hdin := hrdy j hjr d hd
    refine ⟨List.mem_append.2 (Or.inl hdin), ?_⟩
    rw [List.indexOf_append_of_mem hdin,
      List.indexOf_append_of_not_mem (hdisj j hjr)]
    exact Nat.lt_of_lt_of_le (List.indexOf_lt_length.2 hdin)
      (Nat.le_add_right _ _)

theorem kahnAux_ok {g : DepGraph} :
    ∀ (fuel : Nat) (done remaining out : List Nat),
      kahnAux g fuel done remaining = Except.ok out →
      topoSorted g done →
      (∀ j ∈ remaining, j ∉ done) →
      topoSorted g out ∧
        (∀ j, (j ∈ done ∨ j ∈ remaining) → j ∈ out) := by
  intro fuel
  induction fuel with
  | zero =>
    intro done remaining out h hts _
    by_cases he : remaining.isEmpty
    · simp only [kahnAux, he, if_pos] at h
      cases h
      refine ⟨hts, ?_⟩
      intro j hj
      rcases hj with hj | hj
      · exact hj
      · rw [List.isEmpty_iff] at he
        rw [he] at hj
        exact absurd hj (List.not_mem_nil j)
    · simp [kahnAux, he] at h
  | succ fuel ih =>
    intro done remaining out h hts hdisj
    by_cases he : remaining.isEmpty
    · simp only [kahnAux, he, if_pos] at h
      cases h
      refine ⟨hts, ?_⟩
      intro j hj
      rcases hj with hj | hj
      · exact hj
      · rw [List.isEmpty_iff] at he
        rw [he] at hj
        exact absurd hj (List.not_mem_nil j)
    · have hrd : ¬ (remaining.filter (kahnReady g done)).isEmpty := by
        intro hrd
        simp [kahnAux, he, hrd] at h
      simp only [kahnAux, he, if_neg, hrd, if_false] at h
      have hstep := ih (done ++ remaining.filter (kahnReady g done))
        (remaining.filter fun i => ! kahnReady g done i) out h ?hts2 ?hdisj2
      case hts2 =>
        refine topoSorted_append hts ?_ ?_
        · intro j hj d hd
          have hready := List.of_mem_filter hj
          have := List.all_eq_true.1 hready d hd
          exact List.mem_of_elem_eq_true this
        · intro j hj
          exact hdisj j (List.mem_of_mem_filter hj)
      case hdisj2 =>
        intro j hj
        have hjr := List.mem_of_mem_filter hj
        have hnready := List.of_mem_filter hj
        intro hmem
        rcases List.mem_append.1 hmem with hjd | hjf
        · exact hdisj j hjr hjd
        · have hready := List.of_mem_filter hjf
          rw [hready] at hnready
          simp at hnready
      refine ⟨hstep.1, ?_⟩
      intro j hj
      rcases hj with hjd | hjr
      · exact hstep.2 j (Or.inl (List.mem_append.2 (Or.inl hjd)))
      · by_cases hready : kahnReady g done j
        · exact hstep.2 j (Or.inl (List.mem_append.2 (Or.inr
            (List.mem_filter.2 ⟨hjr, hready⟩))))
        · refine hstep.2 j (Or.inr (List.mem_filter.2 ⟨hjr, ?_⟩))
          simp [hready]

/-- A successful build yields a topological order containing every step. -/
theorem buildGraph_ok {p : EnginePipeline} {out : List Nat}
    (h : buildGraph p = Except.ok out) :
    topoSorted p.graph out ∧ ∀ j, j < p.n → j ∈ out := by
  obtain ⟨hts, hall⟩ := kahnAux_ok p.n [] (List.range p.n) out h
    (fun j hj => absurd hj (List.not_mem_nil j))
    (fun j _ hj => absurd hj (List.not_mem_nil j))
  exact ⟨hts, fun j hj => hall j (Or.inr (List.mem_range.2 hj))⟩

/-- In a topologically sorted list, transitive predecessors appear strictly
earlier. -/
theorem downstream_indexOf_lt {g : DepGraph} {l : List Nat}
    (hts : topoSorted g l) {a b : Nat} (hd : Downstream g a b) :
    b ∈ l → a ∈ l ∧ l.indexOf a < l.indexOf b := by
  induction hd with
  | base hp => exact fun hb => hts _ hb _ hp
  | trans _ hqp ih =>
    intro hb
    obtain ⟨hqin, hlt⟩ := hts _ hb _ hqp
    obtain ⟨hain, hlt2⟩ := ih hqin
    exact ⟨hain, hlt2.trans hlt⟩

/-- C3: a pipeline whose ordering directives or data dependencies create a
cycle is rejected by the Dependency Graph Builder with a CycleError, and the
rejection happens before any Step Execution runs: the engine entry point
fails without executing any step, for every artifact store. -/
theorem cycle_rejected (p : EnginePipeline) (i : Nat) (hin : i < p.n)
    (hcyc : Downstream p.graph i i) :
    buildGraph p = Except.error BuildError.cycleError ∧
      ∀ s0 : Store, runPipeline p s0 = Except.error BuildError.cycleError := by
  have hb : buildGraph p = Except.error BuildError.cycleError := by
    cases hbg : buildGraph p with
    | ok out =>
      obtain ⟨hts, hall⟩ := buildGraph_ok hbg
      obtain ⟨_, hlt⟩ := downstream_indexOf_lt hts hcyc (hall i hin)
      exact absurd hlt (lt_irrefl _)
    | error e => cases e; rfl
  refine ⟨hb, fun s0 => ?_⟩
  unfold runPipeline
  rw [hb]

/-- A two-step pipeline whose data dependencies form the cycle 0 → 1 → 0. -/
def pCyc : EnginePipeline :=
  ⟨2, ⟨fun i => if i = 0 then [1] else if i = 1 then [0] else [], fun _ => []⟩,
    fun _ => 0, fun _ => [], fun _ _ => 0⟩

theorem pCyc_cycle : Downstream pCyc.graph 0 0 := by
  have h01 : (0 : Nat) ∈ pCyc.graph.preds 1 := by
    simp [pCyc, DepGraph.preds]
  have h10 : (1 : Nat) ∈ pCyc.graph.preds 0 := by
    simp [pCyc, DepGraph.preds]
  exact Downstream.trans (Downstream.base h01) h10

theorem cycle_rejected_witness :
    buildGraph pCyc = Except.error BuildError.cycleError ∧
      runPipeline pCyc [] = Except.error BuildError.cycleError :=
  ⟨(cycle_rejected pCyc 0 (by decide) pCyc_cycle).1,
   (cycle_rejected pCyc 0 (by decide) pCyc_cycle).2 []⟩

/-! ## Failure propagation (spec sections 4.3 and 7) -/

/-- Modelled from the spec: `StepExecutionError` wraps an exception raised by
a step body, carrying the failing step's name and the original error. -/
structure StepExecutionError where
  stepName : String
  original : String
deriving DecidableEq

/-- Modelled from the spec: a pipeline whose step bodies may raise. -/
structure FalliblePipeline where
  n : Nat
  graph : DepGraph
  stepName : Nat → String
  implF : Nat → List Value → Except String Value

/-- State of a fallible run: per-step output values and statuses, the first
(and only) surfaced error, and how many times each step body was invoked. -/
structure FRunState where
  vals : Nat → Value
  status : Nat → Status
  err : Option StepExecutionError
  attempts : Nat → Nat

/-- The fresh state of a fallible run. -/
def initF : FRunState :=
  ⟨fun _ => 0, fun _ => Status.pending, none, fun _ => 0⟩

/-- The final status of the owning Run. -/
inductive RunOutcome
  | succeededRun
  | failedRun
deriving DecidableEq

/-- Modelled from the spec: a Run whose state carries a StepExecutionError is
marked FAILED. -/
def runOutcome (rs : FRunState) : RunOutcome :=
  if rs.err.isSome then RunOutcome.failedRun else RunOutcome.succeededRun

/-- Modelled from the spec: execute one step of a fallible run.  Once a
StepExecutionError has terminated the Run, nothing further executes and the
error is never retried; otherwise the body runs exactly once, ending in
SUCCEEDED, or in FAILED with the error surfaced as a StepExecutionError
wrapping the step's name and the original exception. -/
def execStepF (p : FalliblePipeline) (rs : FRunState) (i : Nat) : FRunState :=
  match rs.err with
  | some _ => rs
  | none =>
    let att := upd rs.attempts i (rs.attempts i + 1)
    match p.implF i ((p.graph.dataPreds i).map rs.vals) with
    | Except.ok v =>
        ⟨upd rs.vals i v, setSt rs.status i Status.succeeded, none, att⟩
    | Except.error e =>
        ⟨rs.vals, setSt rs.status i Status.failed,
          some ⟨p.stepName i, e⟩, att⟩

/-- Execute the steps of a fallible run in order. -/
def runStepsF (p : FalliblePipeline) (rs : FRunState) : List Nat → FRunState
  | [] => rs
  | i :: rest => runStepsF p (execStepF p rs i) rest

/-- After a StepExecutionError the run state never changes again. -/
theorem runStepsF_halt (p : FalliblePipeline) {er : StepExecutionError} :
    ∀ (l : List Nat) (rs : FRunState), rs.err = some er →
      runStepsF p rs l = rs := by
  intro l
  induction l with
  | nil => exact fun rs _ => rfl
  | cons i rest ih =>
    intro rs h
    have hstep : execStepF p rs i = rs := by
      unfold execStepF
      rw [h]
    show runStepsF p (execStepF p rs i) rest = rs
    rw [hstep]
    exact ih rs h

theorem runStepsF_fail (p : FalliblePipeline) :
    ∀ (l : List Nat), l.Nodup →
      ∀ (rs : FRunState), rs.err = none →
      (∀ j, rs.status j ≠ Status.failed) →
      (∀ j ∈ l, rs.attempts j = 0) →
      ∀ i, (runStepsF p rs l).status i = Status.failed →
        runOutcome (runStepsF p rs l) = RunOutcome.failedRun ∧
        (runStepsF p rs l).attempts i = 1 ∧
        ∃ inputs e, p.implF i inputs = Except.error e ∧
          (runStepsF p rs l).err = some ⟨p.stepName i, e⟩ := by
  intro l
  induction l with
  | nil =>
    intro _ rs _ hnf _ i hfail
    exact absurd hfail (hnf i)
  | cons a rest ih =>
    intro hnd rs hcl hnf hatt i hfail
    have hna : a ∉ rest := (List.nodup_cons.1 hnd).1
    cases him : p.implF a ((p.graph.dataPreds a).map rs.vals) with
    | ok v =>
      have hstep : execStepF p rs a =
          ⟨upd rs.vals a v, setSt rs.status a Status.succeeded, none,
            upd rs.attempts a (rs.attempts a + 1)⟩ := by
        simp only [execStepF, hcl, him]
      have hfail' : (runStepsF p (execStepF p rs a) rest).status i
          = Status.failed := hfail
      refine ih (List.nodup_cons.1 hnd).2 (execStepF p rs a)
        (by rw [hstep]) ?_ ?_ i hfail'
      · intro j
        rw [hstep]
        show setSt rs.status a Status.succeeded j ≠ Status.failed
        by_cases hja : j = a
        · simp [setSt, hja]
        · simpa [setSt, hja] using hnf j
      · intro j hj
        rw [hstep]
        show upd rs.attempts a (rs.attempts a + 1) j = 0
        have hja : j ≠ a := fun h => hna (h ▸ hj)
        simpa [upd, hja] using hatt j (List.mem_cons_of_mem a hj)
    | error e =>
      have hstep : execStepF p rs a =
          ⟨rs.vals, setSt rs.status a Status.failed,
            some ⟨p.stepName a, e⟩,
            upd rs.attempts a (rs.attempts a + 1)⟩ := by
        simp only [execStepF, hcl, him]
      have hhalt : runStepsF p rs (a :: rest) = execStepF p rs a := by
        show runStepsF p (execStepF p rs a) rest = execStepF p rs a
        exact runStepsF_halt p rest (execStepF p rs a) (by rw [hstep])
      rw [hhalt] at hfail ⊢
      rw [hstep] at hfail
      have hia : i = a := by
        by_contra hne
        exact hnf i (by simpa [setSt, hne] using hfail)
      subst hia
      rw [hstep]
      refine ⟨by simp [runOutcome], ?_, ?_⟩
      · show upd rs.attempts i (rs.attempts i + 1) i = 1
        have h0 : rs.attempts i = 0 := hatt i (List.mem_cons_self i rest)
        simp [upd, h0]
      · exact ⟨(p.graph.dataPreds i).map rs.vals, e, him, rfl⟩

/-- C8: if a step body raises, the resulting StepExecutionError is not
retried (the body was invoked exactly once), the owning Run terminates
FAILED, and the surfaced error carries the failing step's name together with
the original exception. -/
theorem step_exception_fails_run (p : FalliblePipeline) (order : List Nat)
    (hnd : order.Nodup) (i : Nat)
    (hfail : (runStepsF p initF order).status i = Status.failed) :
    runOutcome (runStepsF p initF order) = RunOutcome.failedRun ∧
    (runStepsF p initF order).attempts i = 1 ∧
    ∃ inputs e, p.implF i inputs = Except.error e ∧
      (runStepsF p initF order).err = some ⟨p.stepName i, e⟩ :=
  runStepsF_fail p order hnd initF rfl
    (fun _ h => Status.noConfusion h) (fun _ _ => rfl) i hfail

/-- A one-step pipeline whose single step body always raises. -/
def pFail : FalliblePipeline :=
  ⟨1, ⟨fun _ => [], fun _ => []⟩, fun _ => "trainer",
    fun _ _ => Except.error "boom"⟩

theorem step_exception_fails_run_witness :
    runOutcome (runStepsF pFail initF [0]) = RunOutcome.failedRun ∧
    (runStepsF pFail initF [0]).attempts 0 = 1 ∧
    ∃ inputs e, pFail.implF 0 inputs = Except.error e ∧
      (runStepsF pFail initF [0]).err = some ⟨pFail.stepName 0, e⟩ :=
  step_exception_fails_run pFail [0] (by decide) 0 (by decide)

/-! ## Notebook step functions (src/examples/quickstart/notebooks/quickstart.ipynb) -/

/-- A pandas DataFrame of feature rows, as passed between the notebook's
steps.  Feature values are modelled as rationals. -/
structure DataFrame where
  rows : List (List ℚ)
deriving DecidableEq

/-- `DataFrame.to_numpy()`. -/
def DataFrame.to_numpy (d : DataFrame) : List (List ℚ) := d.rows

/-- A pandas Series of labels. -/
structure Series where
  entries : List ℚ
deriving DecidableEq

/-- `Series.to_numpy()`. -/
def Series.to_numpy (s : Series) : List ℚ := s.entries

/-- An sklearn classifier, characterised by its per-row prediction. -/
structure ClassifierMixin where
  predictRow : List ℚ → ℚ

/-- `ClassifierMixin.score(X, y)`: the mean accuracy of the predictions on
`X` against the true labels `y`. -/
def ClassifierMixin.score (m : ClassifierMixin) (X : List (List ℚ))
    (y : List ℚ) : ℚ :=
  (((X.zip y).filter fun xy => m.predictRow xy.1 = xy.2).length : ℚ) /
    ((X.zip y).length : ℚ)

/-- `best_model_selector` from the notebook: scores both models on the test
set and returns the better model with its test accuracy; on a tie the
`else` branch returns `model2`. -/
def best_model_selector (X_test : DataFrame) (y_test : Series)
    (model1 model2 : ClassifierMixin) : ClassifierMixin × ℚ :=
  let test_acc1 := model1.score X_test.to_numpy y_test.to_numpy
  let test_acc2 := model2.score X_test.to_numpy y_test.to_numpy
  if test_acc1 > test_acc2 then (model1, test_acc1) else (model2, test_acc2)

/-- C9: `best_model_selector` returns `model1` with `model1`'s test accuracy
exactly when `model1`'s accuracy is strictly greater than `model2`'s (the
"if and only if" read on distinct models), otherwise — including ties — it
returns `model2` with `model2`'s accuracy, and the returned accuracy is
always the maximum of the two. -/
theorem best_model_selector_spec (X_test : DataFrame) (y_test : Series)
    (m1 m2 : ClassifierMixin) :
    (m1.score X_test.to_numpy y_test.to_numpy >
        m2.score X_test.to_numpy y_test.to_numpy →
      best_model_selector X_test y_test m1 m2 =
        (m1, m1.score X_test.to_numpy y_test.to_numpy)) ∧
    (¬ (m1.score X_test.to_numpy y_test.to_numpy >
        m2.score X_test.to_numpy y_test.to_numpy) →
      best_model_selector X_test y_test m1 m2 =
        (m2, m2.score X_test.to_numpy y_test.to_numpy)) ∧
    (best_model_selector X_test y_test m1 m2).2 =
      max (m1.score X_test.to_numpy y_test.to_numpy)
        (m2.score X_test.to_numpy y_test.to_numpy) ∧
    (m1 ≠ m2 →
      (best_model_selector X_test y_test m1 m2 =
          (m1, m1.score X_test.to_numpy y_test.to_numpy) ↔
        m1.score X_test.to_numpy y_test.to_numpy >
          m2.score X_test.to_numpy y_test.to_numpy)) := by
  by_cases h : m1.score X_test.to_numpy y_test.to_numpy >
      m2.score X_test.to_numpy y_test.to_numpy
  · refine ⟨fun _ => by simp [best_model_selector, h], fun hc => absurd h hc,
      ?_, fun _ => ⟨fun _ => h, fun _ => by simp [best_model_selector, h]⟩⟩
    simp [best_model_selector, h, max_eq_left (le_of_lt h)]
  · refine ⟨fun hc => absurd hc h, fun _ => by simp [best_model_selector, h],
      ?_, fun hne => ⟨fun heq => ?_, fun hc => absurd hc h⟩⟩
    · simp [best_model_selector, h, max_eq_right (not_lt.1 h)]
    · have h2 : best_model_selector X_test y_test m1 m2 =
          (m2, m2.score X_test.to_numpy y_test.to_numpy) := by
        simp [best_model_selector, h]
      rw [h2] at heq
      exact absurd (congrArg Prod.fst heq).symm hne

/-- The classifier predicting label 1 for every row. -/
def clfOne : ClassifierMixin := ⟨fun _ => 1⟩

/-- The classifier predicting label 0 for every row. -/
def clfZero : ClassifierMixin := ⟨fun _ => 0⟩

/-- A one-row test set whose label is 1. -/
def dfW : DataFrame := ⟨[[5]]⟩

/-- The matching label series. -/
def sW : Series := ⟨[1]⟩

theorem clfOne_ne_clfZero : clfOne ≠ clfZero := by
  intro h
  have h2 := congrArg (fun m => m.predictRow []) h
  simp [clfOne, clfZero] at h2

theorem best_model_selector_spec_witness :
    best_model_selector dfW sW clfOne clfZero =
      (clfOne, clfOne.score dfW.to_numpy sW.to_numpy) ∧
    best_model_selector dfW sW clfZero clfOne =
      (clfOne, clfOne.score dfW.to_numpy sW.to_numpy) ∧
    (best_model_selector dfW sW clfOne clfZero =
        (clfOne, clfOne.score dfW.to_numpy sW.to_numpy) ↔
      clfOne.score dfW.to_numpy sW.to_numpy >
        clfZero.score dfW.to_numpy sW.to_numpy) :=
  ⟨(best_model_selector_spec dfW sW clfOne clfZero).1 (by
      norm_num [ClassifierMixin.score, dfW, sW, clfOne, clfZero,
        DataFrame.to_numpy, Series.to_numpy, List.zip, List.filter]),
   (best_model_selector_spec dfW sW clfZero clfOne).2.1 (by
      norm_num [ClassifierMixin.score, dfW, sW, clfOne, clfZero,
        DataFrame.to_numpy, Series.to_numpy, List.zip, List.filter]),
   (best_model_selector_spec dfW sW clfOne clfZero).2.2.2
      clfOne_ne_clfZero⟩

/-- A deployed model service, as managed by the model deployer. -/
structure BaseService where
  pipelineName : String
  isRunning : Bool
  serviceId : Nat
deriving DecidableEq

/-- The model deployer component of the active stack, holding the deployed
services. -/
structure ModelDeployer where
  services : List BaseService

/-- Modelled from the spec: `find_model_server` of the stack's model
deployer, missing from the provided sources: it returns the deployer's
services filtered by pipeline name and running state, in deployment order. -/
def ModelDeployer.find_model_server (d : ModelDeployer) (pipeline_name : String)
    (running : Bool) : List BaseService :=
  d.services.filter fun s =>
    s.pipelineName == pipeline_name && s.isRunning == running

/-- The active client, exposing the active stack's model deployer. -/
structure Client where
  model_deployer : ModelDeployer

/-- The Python IndexError raised by an out-of-range list subscript. -/
inductive PyError
  | indexError
deriving DecidableEq

/-- `prediction_service_loader` from the notebook: finds the running model
servers of `train_and_register_model_pipeline` and returns `services[0]`
without checking that the list is non-empty; on an empty list the subscript
raises an IndexError. -/
def prediction_service_loader (client : Client) : Except PyError BaseService :=
  let model_deployer := client.model_deployer
  let services := model_deployer.find_model_server
    "train_and_register_model_pipeline" true
  match services with
  | [] => Except.error PyError.indexError
  | s :: _ => Except.ok s

/-- C10: `prediction_service_loader` returns the first element of
`find_model_server`'s result unguarded: whenever at least one running model
server for `train_and_register_model_pipeline` exists it returns the first
one, and in any state with no such server the subscript `services[0]` fails
with an IndexError — the error branch is reachable. -/
theorem prediction_service_loader_spec (client : Client) :
    (∀ s rest,
      client.model_deployer.find_model_server
          "train_and_register_model_pipeline" true = s :: rest →
        prediction_service_loader client = Except.ok s) ∧
    (client.model_deployer.find_model_server
        "train_and_register_model_pipeline" true = [] →
      prediction_service_loader client = Except.error PyError.indexError) := by
  constructor
  · intro s rest h
    simp only [prediction_service_loader, h]
  · intro h
    simp only [prediction_service_loader, h]

/-- A running service for the quickstart training pipeline. -/
def svcW : BaseService := ⟨"train_and_register_model_pipeline", true, 7⟩

/-- A client whose deployer holds one matching running server. -/
def clientSome : Client := ⟨⟨[svcW]⟩⟩

/-- A client whose deployer holds only a stopped server. -/
def clientNone : Client :=
  ⟨⟨[⟨"train_and_register_model_pipeline", false, 3⟩]⟩⟩

theorem prediction_service_loader_spec_witness :
    prediction_service_loader clientSome = Except.ok svcW ∧
    prediction_service_loader clientNone = Except.error PyError.indexError :=
  ⟨(prediction_service_loader_spec clientSome).1 svcW [] (by rfl),
   (prediction_service_loader_spec clientNone).2 (by rfl)⟩

end ZenML
